import Mathlib

/-!
# Verification of the opentelemetry-go-compile-instrumentation core

Shallow embedding of the instrumentation driver's pure core in Lean 4.
Strings are modelled as `List Char` (Go strings are byte sequences; all
relevant data here is ASCII), Go maps as association lists, fallible code
as `Except`/`Option`, and filesystem/OS queries as explicit oracles.

Sections mirror the Go packages:
* `Semver`   — golang.org/x/mod/semver (external dependency used by
  `matchVersion`; translated from that library's `parse`/`Compare`).
* `GoUtil`   — tool/util/go.go (`IsCompileCommand`, `FindFlagValue`,
  `SplitCompileCmds`, `GetBuildTarget`, `ResolveCgoFile`) together with
  the path helpers from the Go standard library they call
  (`path.Clean`, `filepath.Base`, `filepath.Join` for slash paths).
* `Setup`    — tool/internal/setup (`matchVersion`, `findModVersion`,
  `genHookLinkNames`).
* `RuleLoader` — tool/internal/rule/loader.go (`CreateRuleFromFields`).
* `Instrument` — tool/internal/instrument (`Toolexec` compile gate,
  `groupRules`, `filterRulesWithQuickCheck`, `instrument`).
-/

/-- Go strings, modelled as character lists. -/
abbrev Str := List Char

/-- Coerce a Lean string literal to the `Str` model. -/
def str (s : String) : Str := s.data

theorem dropWhile_length_le (p : Char → Bool) (v : List Char) :
    (v.dropWhile p).length ≤ v.length := by
  induction v with
  | nil => simp [List.dropWhile]
  | cons a t ih =>
    simp only [List.dropWhile]
    cases p a <;> simp <;> omega

namespace GoStrings

/-- `strings.HasPrefix` / `bytes` prefix test. -/
def hasPrefix (s pre : Str) : Bool := pre.isPrefixOf s

/-- `strings.HasSuffix`. -/
def hasSuffix (s suf : Str) : Bool := suf.isSuffixOf s

/-- `strings.Contains`: `sub` occurs somewhere inside `s`. -/
def containsSub (s sub : Str) : Bool :=
  match s with
  | [] => sub.isPrefixOf s
  | _ :: rest => sub.isPrefixOf s || containsSub rest sub

/-- `strings.TrimSuffix`. -/
def trimSuffix (s suf : Str) : Str :=
  if hasSuffix s suf then s.take (s.length - suf.length) else s

/-- `strings.Join`. -/
def joinStrs : List Str → Str → Str
  | [], _ => []
  | [a], _ => a
  | a :: rest, sep => a ++ sep ++ joinStrs rest sep

end GoStrings

/-! ## Semver — golang.org/x/mod/semver

Translated from the `semver` package of golang.org/x/mod (the external
library `matchVersion` delegates version ordering to). `Compare` treats
invalid versions as smaller than all valid ones and equal to each other;
build metadata is ignored. -/

namespace Semver

/-- Result of a successful parse: major/minor/patch kept as digit strings
(the library compares them as strings), prerelease kept with its
leading `-`. -/
structure Parsed where
  major : Str
  minor : Str
  patch : Str
  prerelease : Str
  build : Str
deriving DecidableEq, Repr

def isDigit (c : Char) : Bool := '0' ≤ c && c ≤ '9'

def isIdentChar (c : Char) : Bool :=
  ('A' ≤ c && c ≤ 'Z') || ('a' ≤ c && c ≤ 'z') || isDigit c || c = '-'

/-- `parseInt`: a nonempty run of digits with no leading zero
(except `0` itself); returns the digits and the rest. -/
def parseInt (v : Str) : Option (Str × Str) :=
  match v with
  | [] => none
  | c :: _ =>
    if isDigit c then
      let t := v.takeWhile isDigit
      let rest := v.dropWhile isDigit
      if c = '0' && t.length ≠ 1 then none else some (t, rest)
    else none

/-- `isNum`: the identifier consists solely of digits. -/
def isNum (v : Str) : Bool := v.all isDigit

/-- `isBadNum`: all digits, longer than one, leading zero. -/
def isBadNum (v : Str) : Bool :=
  v.all isDigit && v.length > 1 && (match v with | c :: _ => c = '0' | [] => false)

/-- Character loop of `parsePrerelease`: `seg` is the current dot-separated
segment (Go's `v[start:i]`), `acc` the already-validated text (Go's
`v[:start]`). A `+` or the end of input terminates the scan; each
finished segment must be nonempty, made of identifier characters, and
not a leading-zero numeral. -/
def prereleaseScan (seg acc : Str) : Str → Option (Str × Str)
  | [] => if seg = [] || isBadNum seg then none else some (acc ++ seg, [])
  | '+' :: rest =>
    if seg = [] || isBadNum seg then none else some (acc ++ seg, '+' :: rest)
  | c :: rest =>
    if !isIdentChar c && c ≠ '.' then none
    else if c = '.' then
      if seg = [] || isBadNum seg then none
      else prereleaseScan [] (acc ++ seg ++ ['.']) rest
    else prereleaseScan (seg ++ [c]) acc rest

/-- `parsePrerelease`: `-` followed by nonempty dot-separated identifiers
over `[0-9A-Za-z-]`, numeric identifiers free of leading zeros; stops
before `+`. Returns the matched text (with `-`) and the rest. -/
def parsePrerelease (v : Str) : Option (Str × Str) :=
  match v with
  | '-' :: rest => prereleaseScan [] ['-'] rest
  | _ => none

/-- Character loop of `parseBuild` (runs to the end of the input;
leading-zero numerals are permitted here). -/
def buildScan (seg acc : Str) : Str → Option (Str × Str)
  | [] => if seg = [] then none else some (acc ++ seg, [])
  | c :: rest =>
    if !isIdentChar c && c ≠ '.' then none
    else if c = '.' then
      if seg = [] then none
      else buildScan [] (acc ++ seg ++ ['.']) rest
    else buildScan (seg ++ [c]) acc rest

/-- `parseBuild`: `+` followed by nonempty dot-separated identifiers over
`[0-9A-Za-z-]`. -/
def parseBuild (v : Str) : Option (Str × Str) :=
  match v with
  | '+' :: rest => buildScan [] ['+'] rest
  | _ => none

/-- `parse`: leading `v`, then `major[.minor[.patch]][-pre][+build]`,
missing minor/patch default to `0`. -/
def parse (v : Str) : Option Parsed :=
  match v with
  | 'v' :: v1 =>
    match parseInt v1 with
    | none => none
    | some (major, v2) =>
      if v2 = [] then some ⟨major, ['0'], ['0'], [], []⟩
      else
        match v2 with
        | '.' :: v3 =>
          match parseInt v3 with
          | none => none
          | some (minor, v4) =>
            if v4 = [] then some ⟨major, minor, ['0'], [], []⟩
            else
              match v4 with
              | '.' :: v5 =>
                match parseInt v5 with
                | none => none
                | some (patch, v6) =>
                  let (pre, v7) :=
                    match v6 with
                    | '-' :: _ =>
                      match parsePrerelease v6 with
                      | some (p, r) => (some p, r)
                      | none => (none, v6)
                    | _ => (some [], v6)
                  match pre with
                  | none => none
                  | some p =>
                    let (bld, v8) :=
                      match v7 with
                      | '+' :: _ =>
                        match parseBuild v7 with
                        | some (b, r) => (some b, r)
                        | none => (none, v7)
                      | _ => (some [], v7)
                    match bld with
                    | none => none
                    | some b =>
                      if v8 = [] then some ⟨major, minor, patch, p, b⟩ else none
              | _ => none
        | _ => none
  | _ => none

/-- `IsValid`. -/
def isValid (v : Str) : Bool := (parse v).isSome

/-- Lexicographic (byte-wise) string comparison, as Go's `<` on strings. -/
def ltStr : Str → Str → Bool
  | [], [] => false
  | [], _ :: _ => true
  | _ :: _, [] => false
  | a :: x, b :: y => if a = b then ltStr x y else decide (a < b)

/-- `compareInt`: equal-length digit strings compare lexicographically,
otherwise the shorter (no leading zeros) is smaller. -/
def compareInt (x y : Str) : Int :=
  if x = y then 0
  else if x.length < y.length then -1
  else if x.length > y.length then 1
  else if ltStr x y then -1 else 1

/-- Comparison of two unequal identifiers (`comparePrerelease`'s inner
`if dx != dy` block): numeric identifiers are smaller than alphanumeric
ones and compare numerically (length, then lexicographically);
otherwise lexicographic. -/
def compareIdent (dx dy : Str) : Int :=
  let ix := isNum dx
  let iy := isNum dy
  if ix ≠ iy then (if ix then -1 else 1)
  else if ix && dx.length < dy.length then -1
  else if ix && dx.length > dy.length then 1
  else if ltStr dx dy then -1 else 1

/-- Loop of `comparePrerelease` over the dot-separated identifier lists
(Go walks the raw strings, consuming one `-`/`.` and one `nextIdent`
chunk per iteration; that traversal enumerates exactly the dot-separated
segments after the leading `-`). A proper prefix is smaller. -/
def comparePrereleaseLoop : List Str → List Str → Int
  | [], _ => -1
  | _, [] => 1
  | dx :: xt, dy :: yt =>
    if dx ≠ dy then compareIdent dx dy else comparePrereleaseLoop xt yt

/-- `comparePrerelease`: the empty prerelease (a release version) beats
any prerelease; otherwise compare identifier lists. -/
def comparePrerelease (x y : Str) : Int :=
  if x = y then 0
  else if x = [] then 1
  else if y = [] then -1
  else comparePrereleaseLoop ((x.drop 1).splitOn '.') ((y.drop 1).splitOn '.')

/-- `semver.Compare`. -/
def compare (v w : Str) : Int :=
  match parse v, parse w with
  | none, none => 0
  | none, some _ => -1
  | some _, none => 1
  | some pv, some pw =>
    let c1 := compareInt pv.major pw.major
    if c1 ≠ 0 then c1
    else
      let c2 := compareInt pv.minor pw.minor
      if c2 ≠ 0 then c2
      else
        let c3 := compareInt pv.patch pw.patch
        if c3 ≠ 0 then c3
        else comparePrerelease pv.prerelease pw.prerelease

end Semver

/-! ## Go `path` / `path/filepath` helpers (slash paths, as on the
non-Windows hosts the tool targets)

Translated from the Go standard library's `path.Clean`, `filepath.Base`
and `filepath.Join`, which `GetBuildTarget` and `ResolveCgoFile` call. -/

namespace GoPath

/-- Backtracking loop of `path.Clean`'s `..` case: `d` is the character
just removed from the output buffer, `out` the remaining buffer in
reverse; keep removing while the buffer is longer than `dotdot` and the
removed character is not a separator. -/
def popLoop : Str → Nat → Char → Str
  | [], _, _ => []
  | c :: rest, dotdot, d =>
    if (c :: rest).length > dotdot && d ≠ '/' then popLoop rest dotdot c
    else c :: rest

/-- Main loop of `path.Clean`. `rem` is the unread input (Go's
`path[r:]`), `outRev` the output buffer in reverse, `dotdot` the length
of the output prefix that `..` may not erase. Every iteration consumes
at least one input character, so running the loop on `fuel = rem.length`
(structural recursion on the fuel, which keeps the definition
kernel-evaluable) is exact. -/
def cleanLoop (rooted : Bool) : Nat → Str → Str → Nat → Str
  | _, [], outRev, _ => outRev
  | 0, _, outRev, _ => outRev
  | fuel + 1, c :: rest, outRev, dotdot =>
    if c = '/' then
      -- empty path element
      cleanLoop rooted fuel rest outRev dotdot
    else if c = '.' && (rest = [] || rest.head? = some '/') then
      -- `.` element
      cleanLoop rooted fuel rest outRev dotdot
    else if c = '.' && rest.head? = some '.' &&
        ((rest.drop 1) = [] || (rest.drop 1).head? = some '/') then
      -- `..` element
      if outRev.length > dotdot then
        -- can backtrack
        let out' := match outRev with
                    | c' :: r => popLoop r dotdot c'
                    | [] => []
        cleanLoop rooted fuel (rest.drop 1) out' dotdot
      else if !rooted then
        -- cannot backtrack, but not rooted, so append `..`
        let out' := '.' :: '.' :: (if outRev ≠ [] then '/' :: outRev else outRev)
        cleanLoop rooted fuel (rest.drop 1) out' out'.length
      else
        -- rooted `..` above root: discard
        cleanLoop rooted fuel (rest.drop 1) outRev dotdot
    else
      -- real path element: add separator if needed, then copy the element
      -- (`c ≠ '/'` here, so the element is `c` followed by the run of
      -- non-separator characters of `rest`)
      let sepOut := if (rooted && outRev.length ≠ 1) || (!rooted && outRev.length ≠ 0)
                    then '/' :: outRev else outRev
      cleanLoop rooted fuel (rest.dropWhile (· ≠ '/'))
        ((c :: rest.takeWhile (· ≠ '/')).reverse ++ sepOut) dotdot

/-- `path.Clean`: lexical simplification of a slash path (drop empty and
`.` elements, resolve `..`, keep leading `..` on relative paths,
`""` cleans to `.`). -/
def clean (p : Str) : Str :=
  match p with
  | [] => ['.']
  | c :: rest =>
    let outRev := if c = '/' then cleanLoop true rest.length rest ['/'] 1
                  else cleanLoop false p.length p [] 0
    if outRev = [] then ['.'] else outRev.reverse

/-- `filepath.Base` for slash paths: strip trailing separators, then the
part after the last separator; all-separator input yields `/`, empty
input yields `.`. -/
def base (p : Str) : Str :=
  if p = [] then ['.']
  else
    let r := p.reverse.dropWhile (· = '/')
    let b := r.takeWhile (· ≠ '/')
    if b = [] then ['/'] else b.reverse

/-- `filepath.Join` restricted to two components: join with a separator
starting from the first nonempty component, then clean. -/
def join2 (a b : Str) : Str :=
  if a ≠ [] then clean (a ++ '/' :: b)
  else if b ≠ [] then clean b
  else []

end GoPath

/-! ## tool/util/go.go -/

namespace GoUtil

open GoStrings

/-- `util.IsCompileCommand`: the line contains `-o`, `-p`, `-buildid`
and the compiler executable name (`compile`, `compile.exe` on Windows),
and does not contain `-pgoprofile` (PGO variants are skipped so the same
package is not found twice). -/
def IsCompileCommand (windows : Bool) (line : Str) : Bool :=
  let check := [str "-o", str "-p", str "-buildid",
                if windows then str "compile.exe" else str "compile"]
  check.all (fun id => containsSub line id) && !containsSub line (str "-pgoprofile")

/-- `util.FindFlagValue`: value of the element right after the first
occurrence of `flag`; `""` when the flag does not occur. Accessing
`cmd[i+1]` when the flag is the final element is an out-of-range panic,
modelled as `none`. -/
def FindFlagValue (cmd : List Str) (flag : Str) : Option Str :=
  match cmd with
  | [] => some []
  | v :: rest => if v = flag then rest.head? else FindFlagValue rest flag

/-- Loop of `util.SplitCompileCmds`: whitespace-separated tokens, a `"`
toggles the in-quotes state (and is dropped), spaces inside quotes are
kept; a nonempty pending token is flushed at each separating space and
at the end. -/
def splitLoop : Str → Bool → Str → List Str → List Str
  | [], _, arg, args => if arg.length > 0 then args ++ [arg] else args
  | c :: rest, inQuotes, arg, args =>
    if c = '"' then splitLoop rest (!inQuotes) arg args
    else if c = ' ' && !inQuotes then
      if arg.length > 0 then splitLoop rest inQuotes [] (args ++ [arg])
      else splitLoop rest inQuotes [] args
    else splitLoop rest inQuotes (arg ++ [c]) args

/-- `util.SplitCompileCmds` (non-Windows path; on Windows the function
additionally de-escapes doubled backslashes in each token, which is
outside this model). -/
def SplitCompileCmds (input : Str) : List Str :=
  splitLoop input false [] []

/-- The `flagsWithPathValues` lookup table: build flags whose value is a
path. -/
def flagsWithPathValues (s : Str) : Bool :=
  s = str "-o" || s = str "-modfile" || s = str "-overlay" ||
  s = str "-pgo" || s = str "-pkgdir"

/-- Backward scan of `util.GetBuildTarget` over the reversed argument
list (Go iterates `i` from the end; `goBuildCmd[i-1]` is the head of the
reversed tail). -/
def getBuildTargetLoop : List Str → Str
  | [] => []
  | a :: rest =>
    if (match rest.head? with
        | some prev => flagsWithPathValues prev
        | none => false) then
      -- preceded by a path-taking flag: this is a flag value, stop
      []
    else if hasPrefix a (str "-") then
      -- hit a flag: packages come after all flags, stop
      []
    else if a = str "go" || a = str "build" then getBuildTargetLoop rest
    else if GoPath.clean a ≠ str "." then GoPath.clean a
    else []

/-- `util.GetBuildTarget`: extract the build target path from a
`go build` command. -/
def GetBuildTarget (goBuildCmd : List Str) : Str :=
  getBuildTargetLoop goBuildCmd.reverse

/-- `util.ResolveCgoFile` (identical to `setup.resolveCgoFile`): map a
CGO-generated file `…/base.cgo1.go` back to `sourceDir/base.go`,
requiring both arguments nonempty and the original to exist
(`pathExists` is the filesystem oracle standing for `util.PathExists`). -/
def ResolveCgoFile (pathExists : Str → Bool) (cgoFile sourceDir : Str) :
    Except Str Str :=
  if cgoFile = [] || sourceDir = [] then
    .error (str "cgoFile and sourceDir cannot be empty")
  else
    let baseName := GoPath.base cgoFile
    if !hasSuffix baseName (str ".cgo1.go") then
      .error (str "file is not a CGO generated file")
    else
      let originalBase := trimSuffix baseName (str ".cgo1.go") ++ str ".go"
      let abs := GoPath.join2 sourceDir originalBase
      if !pathExists abs then .error (str "file does not exist")
      else .ok abs

end GoUtil

/-! ## tool/internal/rule — rule data model

The defining Go file of the `rule` package's data types is not among the
sources; the shapes below are modelled from the spec (§3 “Rule (tagged
variant)”, §6 rule-declaration fields) and from how loader.go, match.go
and the generators read the fields. -/

namespace Rule

/-- Modelled from the spec: the base record every rule carries
(`name`, `target`, optional `version` constraint). -/
structure InstBaseRule where
  Name : Str := []
  Target : Str := []
  Version : Str := []
deriving DecidableEq, Repr

/-- Modelled from the spec: `Function(recv?, func_name, before?, after?,
hook_path)`. -/
structure InstFuncRule where
  base : InstBaseRule := {}
  Func : Str := []
  Recv : Str := []
  Before : Str := []
  After : Str := []
  Path : Str := []
deriving DecidableEq, Repr

/-- Modelled from the spec: `Struct(struct_name, new_fields[])`. -/
structure InstStructRule where
  base : InstBaseRule := {}
  Struct : Str := []
  Fields : List (Str × Str) := []
deriving DecidableEq, Repr

/-- Modelled from the spec: `Raw(recv?, func_name, raw_text)`. -/
structure InstRawRule where
  base : InstBaseRule := {}
  Func : Str := []
  Recv : Str := []
  Raw : Str := []
deriving DecidableEq, Repr

/-- Modelled from the spec: `File(file_name, hook_path)`. -/
structure InstFileRule where
  base : InstBaseRule := {}
  FileName : Str := []
  Path : Str := []
deriving DecidableEq, Repr

/-- The `InstRule` interface: one of the four variants. -/
inductive InstRule where
  | funcRule (r : InstFuncRule)
  | structRule (r : InstStructRule)
  | rawRule (r : InstRawRule)
  | fileRule (r : InstFileRule)
deriving DecidableEq, Repr

/-- `InstRule.GetVersion` accessor. -/
def InstRule.GetVersion : InstRule → Str
  | .funcRule r => r.base.Version
  | .structRule r => r.base.Version
  | .rawRule r => r.base.Version
  | .fileRule r => r.base.Version

/-- `InstRule.GetTarget` accessor. -/
def InstRule.GetTarget : InstRule → Str
  | .funcRule r => r.base.Target
  | .structRule r => r.base.Target
  | .rawRule r => r.base.Target
  | .fileRule r => r.base.Target

end Rule

/-! ## tool/internal/setup — version matching and discovery -/

namespace Setup

open GoStrings

/-- `setup.Dependency`: one per compiled package. -/
structure Dependency where
  ImportPath : Str := []
  Version : Str := []
  Sources : List Str := []
  CgoFiles : List (Str × Str) := []
deriving DecidableEq, Repr

/-- `setup.matchVersion`: empty rule version always matches; a version
containing a comma is the half-open range `[start,end)` split at the
first comma; otherwise a minimal version. Ordering is
`golang.org/x/mod/semver.Compare`. -/
def matchVersion (dependency : Dependency) (rule : Rule.InstRule) : Bool :=
  if rule.GetVersion = [] then true
  else
    let ruleVersion := rule.GetVersion
    if containsSub ruleVersion [','] then
      let startInclusive := ruleVersion.takeWhile (· ≠ ',')
      let endExclusive := (ruleVersion.dropWhile (· ≠ ',')).drop 1
      decide (0 ≤ Semver.compare dependency.Version startInclusive) &&
        decide (Semver.compare dependency.Version endExclusive < 0)
    else decide (0 ≤ Semver.compare dependency.Version ruleVersion)

/-- Match of the regular expression `@v\d+\.\d+\.\d+(-.*?)?/` at the head
of `s` (`findModVersion`'s pattern): after `@vN.N.N`, either a `/`
immediately (empty optional group) or a `-…` run lazily extended to the
first `/`. Returns the matched text including the `@` and the `/`. -/
def matchVersionAt (s : Str) : Option Str :=
  match s with
  | '@' :: 'v' :: rest =>
    let d1 := rest.takeWhile Semver.isDigit
    let r1 := rest.dropWhile Semver.isDigit
    if d1 = [] then none
    else
      match r1 with
      | '.' :: r1' =>
        let d2 := r1'.takeWhile Semver.isDigit
        let r2 := r1'.dropWhile Semver.isDigit
        if d2 = [] then none
        else
          match r2 with
          | '.' :: r2' =>
            let d3 := r2'.takeWhile Semver.isDigit
            let r3 := r2'.dropWhile Semver.isDigit
            if d3 = [] then none
            else
              let core := '@' :: 'v' :: d1 ++ '.' :: d2 ++ '.' :: d3
              match r3 with
              | '/' :: _ => some (core ++ ['/'])
              | '-' :: _ =>
                let body := r3.takeWhile (· ≠ '/')
                if (r3.dropWhile (· ≠ '/')) = [] then none
                else some (core ++ body ++ ['/'])
              | _ => none
          | _ => none
      | _ => none
  | _ => none

/-- Leftmost occurrence search for the version pattern
(`regexp.FindString`). -/
def findVersionSub : Str → Option Str
  | [] => none
  | c :: rest =>
    match matchVersionAt (c :: rest) with
    | some m => some m
    | none => findVersionSub rest

/-- `setup.findModVersion`: the first `@vMAJOR.MINOR.PATCH(-…)?/`
segment of the path, with the `@` and the trailing `/` stripped; `""`
when the pattern does not occur (`filepath.ToSlash` is the identity on
slash-path hosts). -/
def findModVersion (path : Str) : Str :=
  match findVersionSub path with
  | none => []
  | some version => (version.drop 1).dropLast

/-- One generated bodiless hook alias declaration of the runtime-wiring
file: `//go:linkname <name> <path>.<name>` followed by
`func <name>(...interface{})`. -/
structure HookDecl where
  name : Str
  path : Str
deriving DecidableEq, Repr

/-- One `if m.X != "" && !seenHooks[m.X]` step of `genHookLinkNames`:
emit a declaration and mark the hook name seen. -/
def hookStep (seen : List Str) (name path : Str) : List HookDecl × List Str :=
  if name ≠ [] && !(decide (name ∈ seen)) then ([⟨name, path⟩], name :: seen)
  else ([], seen)

/-- Loop of `setup.genHookLinkNames` over the matched function rules,
threading the `seenHooks` set (keyed by hook *name* alone). -/
def genHookLinkNamesLoop (seen : List Str) :
    List Rule.InstFuncRule → List HookDecl
  | [] => []
  | m :: rest =>
    let s1 := hookStep seen m.Before m.Path
    let s2 := hookStep s1.2 m.After m.Path
    s1.1 ++ s2.1 ++ genHookLinkNamesLoop s2.2 rest

/-- `setup.genHookLinkNames`: the bodiless alias declarations of the
generated runtime-wiring file, one per first occurrence of a nonempty
hook name. -/
def genHookLinkNames (matched : List Rule.InstFuncRule) : List HookDecl :=
  genHookLinkNamesLoop [] matched

end Setup

/-! ## tool/internal/rule/loader.go — `CreateRuleFromFields` -/

namespace RuleLoader

/-- A decoded YAML field value as `CreateRuleFromFields` inspects it:
a string, YAML null (`nil` in the Go `any`), or some other shape. -/
inductive YamlVal where
  | vstr (s : Str)
  | vnull
  | vother
deriving DecidableEq, Repr

/-- The `map[string]any` of one rule declaration. -/
def Fields := List (Str × YamlVal)

/-- Map lookup `fields[k]` (absent keys read as `nil`). -/
def Fields.get (fields : Fields) (k : Str) : YamlVal :=
  match fields.find? (fun e => e.1 = k) with
  | some e => e.2
  | none => .vnull

/-- `fields[k] != nil`. -/
def Fields.present (fields : Fields) (k : Str) : Bool :=
  fields.get k ≠ YamlVal.vnull

/-- `rule.CreateRuleFromFields`: build the base record (`target` set when
it type-asserts to a string; a present non-string `version` trips
`util.Assert`, modelled as a load failure), then select the variant by a
`switch` over which key is non-nil, in source order `struct`, `file`,
`raw`, `func`; none of them present reaches `util.ShouldNotReachHere`
(modelled from the spec's error taxonomy as a fatal load failure). The
YAML unmarshalling of the variant payload fields is abstracted away:
only the selected variant and the base record are modelled. -/
def CreateRuleFromFields (name : Str) (fields : Fields) :
    Except Str Rule.InstRule :=
  let base0 : Rule.InstBaseRule := { Name := name }
  let base1 := match fields.get (str "target") with
               | .vstr t => { base0 with Target := t }
               | _ => base0
  match fields.get (str "version") with
  | .vstr v =>
    let base := { base1 with Version := v }
    selectVariant base fields
  | .vnull => selectVariant base1 fields
  | .vother => .error (str "assert failed: version is not a string")
where
  selectVariant (base : Rule.InstBaseRule) (fields : Fields) :
      Except Str Rule.InstRule :=
    if fields.present (str "struct") then .ok (.structRule { base := base })
    else if fields.present (str "file") then .ok (.fileRule { base := base })
    else if fields.present (str "raw") then .ok (.rawRule { base := base })
    else if fields.present (str "func") then .ok (.funcRule { base := base })
    else .error (str "should not reach here: no variant key")

end RuleLoader

/-! ## tool/internal/instrument — compile-shim gate and rewriter driver -/

namespace Instrument

open GoStrings

/-- `rule.InstRuleSet`: the per-package matched rule collection the shim
re-hydrates (maps modelled as association lists). The defining Go file
is not among the sources; shape modelled from the spec (§3 “Package rule
set”) and from how instrument.go and the tests populate it. -/
structure InstRuleSet where
  ModulePath : Str := []
  PackageName : Str := []
  FuncRules : List (Str × List Rule.InstFuncRule) := []
  StructRules : List (Str × List Rule.InstStructRule) := []
  RawRules : List (Str × List Rule.InstRawRule) := []
  FileRules : List Rule.InstFileRule := []
deriving Repr

/-- Association-list lookup of a per-file rule list (empty when the file
has no entry). -/
def lookupRules {α : Type} (m : List (Str × List α)) (file : Str) : List α :=
  match m.find? (fun e => e.1 = file) with
  | some e => e.2
  | none => []

/-- The gate of `instrument.Toolexec`'s fast path (“Strategy A”): join
the argument vector with spaces and test `util.IsCompileCommand`; a
non-compile line is executed unchanged and the shim exits. -/
def ToolexecIsCompile (windows : Bool) (args : List Str) : Bool :=
  GoUtil.IsCompileCommand windows (joinStrs args (str " "))

/-- `instrument.groupRules`: merge the three per-file maps into one map
from file to its rules; for each file the function rules come first,
then struct rules, then raw rules. The key set is the union of the three
key sets. -/
def groupRules (rset : InstRuleSet) : List (Str × List Rule.InstRule) :=
  let funcKeys := rset.FuncRules.map Prod.fst
  let structKeys := (rset.StructRules.map Prod.fst).filter
    (fun k => !(decide (k ∈ funcKeys)))
  let rawKeys := (rset.RawRules.map Prod.fst).filter
    (fun k => !(decide (k ∈ funcKeys)) &&
              !(decide (k ∈ rset.StructRules.map Prod.fst)))
  (funcKeys ++ structKeys ++ rawKeys).map (fun file =>
    (file,
      (lookupRules rset.FuncRules file).map Rule.InstRule.funcRule ++
      (lookupRules rset.StructRules file).map Rule.InstRule.structRule ++
      (lookupRules rset.RawRules file).map Rule.InstRule.rawRule))

/-- `instrument.filterRulesWithQuickCheck`: drop function rules whose
target function does not pass the textual `quickFuncExistsCheck`
(an oracle here); all other rule kinds are kept. -/
def filterRulesWithQuickCheck (quick : Str → Str → Bool) (file : Str)
    (rules : List Rule.InstRule) : List Rule.InstRule :=
  rules.filter (fun r =>
    match r with
    | .funcRule rt => quick file rt.Func
    | _ => true)

/-- Effect oracles of one shim invocation: results of the filesystem- and
AST-level operations `instrument` sequences (`true` = the operation
succeeded; any `false` aborts the shim with an error). -/
structure Oracles where
  quick : Str → Str → Bool
  applyFile : Rule.InstFileRule → Str → Bool
  parseFile : Str → Bool
  applyFunc : Rule.InstFuncRule → Bool
  applyStruct : Rule.InstStructRule → Bool
  applyRaw : Rule.InstRawRule → Bool
  optimizeTJumps : Bool
  writeInstrumented : Str → Bool
  writeGlobals : Str → Bool

/-- The `for _, r := range filteredRules` loop body of
`instrument.instrument`: apply each rule, setting `hasFuncRule` after a
function or raw rule; a grouped file-rule is `util.ShouldNotReachHere`
(modelled as a fatal failure). Returns the updated `hasFuncRule`. -/
def applyRules (orc : Oracles) (hasFuncRule : Bool) :
    List Rule.InstRule → Except Unit Bool
  | [] => .ok hasFuncRule
  | r :: rest =>
    match r with
    | .funcRule rt =>
      if orc.applyFunc rt then applyRules orc true rest else .error ()
    | .structRule rt =>
      if orc.applyStruct rt then applyRules orc hasFuncRule rest else .error ()
    | .rawRule rt =>
      if orc.applyRaw rt then applyRules orc true rest else .error ()
    | .fileRule _ => .error ()

/-- The per-file loop of `instrument.instrument`: quick-check filter
(skip the file when nothing survives), parse, apply the rules, optimize
the trampoline jumps, write the instrumented file. Threads
`hasFuncRule`. -/
def instrumentFiles (orc : Oracles) (hasFuncRule : Bool) :
    List (Str × List Rule.InstRule) → Except Unit Bool
  | [] => .ok hasFuncRule
  | (file, rules) :: rest =>
    let filtered := filterRulesWithQuickCheck orc.quick file rules
    if filtered = [] then instrumentFiles orc hasFuncRule rest
    else if !orc.parseFile file then .error ()
    else
      match applyRules orc hasFuncRule filtered with
      | .error e => .error e
      | .ok h' =>
        if !orc.optimizeTJumps then .error ()
        else if !orc.writeInstrumented file then .error ()
        else instrumentFiles orc h' rest

/-- The `for _, rule := range rset.FileRules` loop of
`instrument.instrument` (file rules run first). -/
def applyFileRules (orc : Oracles) (pkg : Str) :
    List Rule.InstFileRule → Except Unit Unit
  | [] => .ok ()
  | r :: rest =>
    if orc.applyFile r pkg then applyFileRules orc pkg rest else .error ()

/-- `instrument.instrument`: file rules, then the per-file loop, then —
iff some function or raw rule was applied — the globals file
`otel.globals.go`. Returns whether the globals file was emitted. -/
def instrument (orc : Oracles) (rset : InstRuleSet) : Except Unit Bool :=
  match applyFileRules orc rset.PackageName rset.FileRules with
  | .error e => .error e
  | .ok () =>
    match instrumentFiles orc false (groupRules rset) with
    | .error e => .error e
    | .ok hasFuncRule =>
      if hasFuncRule then
        if orc.writeGlobals rset.PackageName then .ok true else .error ()
      else .ok false

end Instrument

example : Semver.compare (str "v1.5.0") (str "v1.0.0") = 1 := by decide
example : Semver.compare (str "v1.9.9") (str "v2.0.0") = -1 := by decide
example : Semver.compare (str "v2.0.0") (str "v2.0.0") = 0 := by decide
example : Semver.compare (str "v1.5.0-alpha") (str "v1.0.0") = 1 := by decide
example : Semver.compare (str "v1.5.0-alpha") (str "v1.5.0") = -1 := by decide
example : Semver.compare (str "") (str "v1.0.0") = -1 := by decide
example : Semver.compare (str "") (str "banana") = 0 := by decide
example : Semver.isValid (str "v1") = true := by decide
example : Semver.isValid (str "1.0.0") = false := by decide
example : Semver.compare (str "v1.0.0-alpha.2") (str "v1.0.0-alpha.11") = -1 := by decide
example : Semver.compare (str "v1.0.0-alpha") (str "v1.0.0-alpha.1") = -1 := by decide
example : Semver.compare (str "v1.0.0-1") (str "v1.0.0-alpha") = -1 := by decide
example : Semver.compare (str "v1.0.0+build") (str "v1.0.0") = 0 := by decide
example : Semver.isValid (str "v1.0.0-01") = false := by decide

/-! ## Spec-side definitions and concrete instances used by the theorems -/

/-- Rule of scenario S3: version range `v1.0.0,v2.0.0`. -/
def s3rule : Rule.InstRule :=
  .funcRule { base := { Version := str "v1.0.0,v2.0.0" } }

/-- The spec's §4.2 compile-invocation predicate, written out: the line
contains `-o`, `-p`, `-buildid` and the compiler executable name, and
does not contain `-pgoprofile`. -/
def SpecCompileInvocation (windows : Bool) (line : Str) : Prop :=
  GoStrings.containsSub line (str "-o") = true ∧
  GoStrings.containsSub line (str "-p") = true ∧
  GoStrings.containsSub line (str "-buildid") = true ∧
  GoStrings.containsSub line
    (if windows then str "compile.exe" else str "compile") = true ∧
  GoStrings.containsSub line (str "-pgoprofile") = false

/-- The predicate claim C2 ascribes to the compile shim: the §4.2
predicate *minus* the `-pgoprofile` profile-only skip. -/
def SpecCompileMinusPgo (windows : Bool) (line : Str) : Prop :=
  GoStrings.containsSub line (str "-o") = true ∧
  GoStrings.containsSub line (str "-p") = true ∧
  GoStrings.containsSub line (str "-buildid") = true ∧
  GoStrings.containsSub line
    (if windows then str "compile.exe" else str "compile") = true

/-- An otherwise-complete compile invocation that carries `-pgoprofile`. -/
def pgoCompileArgs : List Str :=
  [str "/usr/local/go/pkg/tool/linux_amd64/compile",
   str "-o", str "pkg.a", str "-p", str "net/http",
   str "-buildid", str "abc123",
   str "-pgoprofile", str "default.pgo", str "main.go"]

/-- The four rule variants of the catalog. -/
inductive RuleVariant where
  | vstruct
  | vfile
  | vraw
  | vfunc
deriving DecidableEq, Repr

/-- The variant a load result selected (`none` for a load failure). -/
def variantOf : Except Str Rule.InstRule → Option RuleVariant
  | .ok (.structRule _) => some .vstruct
  | .ok (.fileRule _) => some .vfile
  | .ok (.rawRule _) => some .vraw
  | .ok (.funcRule _) => some .vfunc
  | .error _ => none

/-- A rule-declaration field map carrying both `struct` and `func`. -/
def ambiguousFields : RuleLoader.Fields :=
  [(str "target", .vstr (str "github.com/example/lib")),
   (str "struct", .vstr (str "T")),
   (str "func", .vstr (str "F"))]

/-- A well-formed single-variant field map. -/
def funcOnlyFields : RuleLoader.Fields :=
  [(str "target", .vstr (str "github.com/example/lib")),
   (str "func", .vstr (str "F"))]

/-- The build-target extraction as claim C6 words it: remove arguments
starting with `-` together with the value following a path-taking flag,
and the command words `go`/`build`; the result is the path-cleaned last
remaining argument (empty when it cleans to `.` or none remains). -/
def specRemoveFlags : List Str → List Str
  | [] => []
  | a :: rest =>
    if GoStrings.hasPrefix a (str "-") then
      if GoUtil.flagsWithPathValues a then
        match rest with
        | [] => []
        | _ :: rest' => specRemoveFlags rest'
      else specRemoveFlags rest
    else if a = str "go" || a = str "build" then specRemoveFlags rest
    else a :: specRemoveFlags rest

/-- Last positional argument of the claim-side removal, path-cleaned. -/
def specBuildTarget (cmd : List Str) : Str :=
  match (specRemoveFlags cmd).getLast? with
  | none => []
  | some a => if GoPath.clean a = str "." then [] else GoPath.clean a

/-- Closed form of what `GetBuildTarget` actually computes, on the
reversed argument list: skip trailing `go`/`build` words; the next
argument yields its cleaned value unless it is a flag, is immediately
preceded by a path-taking flag, or cleans to `.`. -/
def gbtTrailing (r : List Str) : Str :=
  match r.dropWhile (fun a => a = str "go" || a = str "build") with
  | [] => []
  | a :: rest =>
    if (match rest.head? with
        | some prev => GoUtil.flagsWithPathValues prev
        | none => false) then []
    else if GoStrings.hasPrefix a (str "-") then []
    else if GoPath.clean a ≠ str "." then GoPath.clean a
    else []

/-- The rule kinds that set `hasFuncRule` when applied (function and raw
rules). -/
def isFuncOrRaw : Rule.InstRule → Bool
  | .funcRule _ => true
  | .rawRule _ => true
  | _ => false

/-- Effect oracles under which every operation of the shim succeeds. -/
def allOkOracles : Instrument.Oracles where
  quick := fun _ _ => true
  applyFile := fun _ _ => true
  parseFile := fun _ => true
  applyFunc := fun _ => true
  applyStruct := fun _ => true
  applyRaw := fun _ => true
  optimizeTJumps := true
  writeInstrumented := fun _ => true
  writeGlobals := fun _ => true

/-- A matched rule set holding a single function rule (scenario S5). -/
def funcRuleSet : Instrument.InstRuleSet :=
  { ModulePath := str "main", PackageName := str "main",
    FuncRules := [(str "main.go",
      [{ Func := str "main", Before := str "MyHookBefore",
         Path := str "hooks/a" }])] }

/-- A matched rule set holding a single struct rule (scenario S4). -/
def structRuleSet : Instrument.InstRuleSet :=
  { ModulePath := str "main", PackageName := str "main",
    StructRules := [(str "main.go",
      [{ Struct := str "T", Fields := [(str "NewField", str "string")] }])] }

/-! ## Helper lemmas -/

theorem containsSub_singleton (s : Str) (c : Char) :
    GoStrings.containsSub s [c] = true ↔ c ∈ s := by
  induction s with
  | nil => simp [GoStrings.containsSub, List.isPrefixOf]
  | cons d rest ih =>
    unfold GoStrings.containsSub
    simp [List.isPrefixOf, ih]

theorem takeWhile_append_stop (c : Char) (lo hi : Str)
    (hlo : ∀ x ∈ lo, x ≠ c) :
    (lo ++ c :: hi).takeWhile (· ≠ c) = lo := by
  induction lo with
  | nil => simp [List.takeWhile_cons]
  | cons a rest ih =>
    have ha : a ≠ c := hlo a (by simp)
    have h1 : ∀ x ∈ rest, x ≠ c := fun x hx => hlo x (by simp [hx])
    simp only [List.cons_append, List.takeWhile_cons]
    rw [if_pos (by simpa using ha), ih h1]

theorem dropWhile_append_stop (c : Char) (lo hi : Str)
    (hlo : ∀ x ∈ lo, x ≠ c) :
    (lo ++ c :: hi).dropWhile (· ≠ c) = c :: hi := by
  induction lo with
  | nil => simp [List.dropWhile_cons]
  | cons a rest ih =>
    have ha : a ≠ c := hlo a (by simp)
    have h1 : ∀ x ∈ rest, x ≠ c := fun x hx => hlo x (by simp [hx])
    simp only [List.cons_append, List.dropWhile_cons]
    rw [if_pos (by simpa using ha), ih h1]

theorem semver_compare_nil_left (w : Str) (hw : Semver.isValid w = true) :
    Semver.compare [] w = -1 := by
  unfold Semver.isValid at hw
  rw [Option.isSome_iff_exists] at hw
  obtain ⟨pw, hpw⟩ := hw
  have h0 : Semver.parse [] = none := rfl
  unfold Semver.compare
  rw [h0, hpw]

/-! ## C1 — version matching -/

/-- C1: for every dependency `d` and rule `r`, `matchVersion` behaves as
the spec's version-matching rule under semantic-version ordering
(`Semver.compare`): an empty constraint always matches; a single version
`lo` (no comma) matches iff `d.Version ≥ lo`; a pair `lo,hi` (split at
the first comma) matches iff `lo ≤ d.Version < hi` — start inclusive,
end exclusive. -/
theorem matchVersion_spec (d : Setup.Dependency) (r : Rule.InstRule) :
    (r.GetVersion = [] → Setup.matchVersion d r = true) ∧
    (r.GetVersion ≠ [] → (',' ∉ r.GetVersion) →
       (Setup.matchVersion d r = true ↔
          0 ≤ Semver.compare d.Version r.GetVersion)) ∧
    (∀ lo hi, r.GetVersion = lo ++ ',' :: hi → (',' ∉ lo) →
       (Setup.matchVersion d r = true ↔
          (0 ≤ Semver.compare d.Version lo ∧
           Semver.compare d.Version hi < 0))) := by
  refine ⟨fun h => by simp [Setup.matchVersion, h], ?_, ?_⟩
  · intro hne hnc
    have hc : GoStrings.containsSub r.GetVersion [','] = false := by
      rw [Bool.eq_false_iff]
      intro hcon
      exact hnc ((containsSub_singleton _ _).mp hcon)
    have key : Setup.matchVersion d r =
        decide (0 ≤ Semver.compare d.Version r.GetVersion) := by
      simp only [Setup.matchVersion]
      rw [if_neg hne, if_neg (by simp [hc])]
    rw [key]
    simp
  · intro lo hi hv hlo
    have hmem : ',' ∈ r.GetVersion := by rw [hv]; simp
    have hne : r.GetVersion ≠ [] := by
      intro h0; rw [h0] at hmem; simp at hmem
    have hc : GoStrings.containsSub r.GetVersion [','] = true :=
      (containsSub_singleton _ _).mpr hmem
    have hlo' : ∀ x ∈ lo, x ≠ ',' := fun x hx => by
      intro h0; exact hlo (h0 ▸ hx)
    have htake : r.GetVersion.takeWhile (· ≠ ',') = lo := by
      rw [hv]; exact takeWhile_append_stop ',' lo hi hlo'
    have hdrop : (r.GetVersion.dropWhile (· ≠ ',')).drop 1 = hi := by
      rw [hv, dropWhile_append_stop ',' lo hi hlo']; simp
    have key : Setup.matchVersion d r =
        (decide (0 ≤ Semver.compare d.Version lo) &&
         decide (Semver.compare d.Version hi < 0)) := by
      simp only [Setup.matchVersion]
      rw [if_neg hne, if_pos (by simp [hc]), htake, hdrop]
    rw [key]
    simp

/-- Witness for C1 (spec scenario S3): a dependency at `v1.9.9` matches
the range `v1.0.0,v2.0.0`; the same dependency at `v2.0.0` does not
(end exclusive). -/
theorem matchVersion_spec_witness :
    Setup.matchVersion { Version := str "v1.9.9" } s3rule = true ∧
    Setup.matchVersion { Version := str "v2.0.0" } s3rule = false := by
  constructor
  · exact ((matchVersion_spec { Version := str "v1.9.9" } s3rule).2.2
      (str "v1.0.0") (str "v2.0.0") (by decide) (by decide)).mpr (by decide)
  · have h := ((matchVersion_spec { Version := str "v2.0.0" } s3rule).2.2
      (str "v1.0.0") (str "v2.0.0") (by decide) (by decide))
    rw [Bool.eq_false_iff]
    intro hT
    have h2 := h.mp hT
    revert h2
    decide

/-! ## C10 — unversioned dependencies never match a versioned rule -/

/-- C10: a dependency whose extracted version is empty (its first source
path has no `@vX.Y.Z…/` segment, as computed by `findModVersion`) fails
`matchVersion` against every rule whose constraint is non-empty with a
well-formed (semver-valid) lower bound: the empty string is an invalid
semantic version and orders below every valid one, so an unversioned
dependency is only matched by rules with an empty constraint. -/
theorem matchVersion_empty_version (p : Str) (r : Rule.InstRule)
    (d : Setup.Dependency)
    (hfind : Setup.findModVersion p = [])
    (hdep : d.Version = Setup.findModVersion p)
    (hne : r.GetVersion ≠ [])
    (hvalid : Semver.isValid (r.GetVersion.takeWhile (· ≠ ',')) = true) :
    Setup.matchVersion d r = false := by
  have hd : d.Version = [] := by rw [hdep, hfind]
  by_cases hc : GoStrings.containsSub r.GetVersion [','] = true
  · have hcmp :
        Semver.compare d.Version (r.GetVersion.takeWhile (· ≠ ',')) = -1 := by
      rw [hd]; exact semver_compare_nil_left _ hvalid
    have key : Setup.matchVersion d r =
        (decide (0 ≤ Semver.compare d.Version
            (r.GetVersion.takeWhile (· ≠ ','))) &&
         decide (Semver.compare d.Version
            ((r.GetVersion.dropWhile (· ≠ ',')).drop 1) < 0)) := by
      simp only [Setup.matchVersion]
      rw [if_neg hne, if_pos (by simp [hc])]
    rw [key, hcmp]
    simp
  · have hnc : GoStrings.containsSub r.GetVersion [','] = false :=
      Bool.eq_false_iff.mpr hc
    have hnomem : ',' ∉ r.GetVersion := fun hm =>
      hc ((containsSub_singleton _ _).mpr hm)
    have htake : r.GetVersion.takeWhile (· ≠ ',') = r.GetVersion := by
      apply List.takeWhile_eq_self_iff.mpr
      intro x hx
      simp only [ne_eq, decide_eq_true_eq]
      intro h0
      subst h0
      exact hnomem hx
    rw [htake] at hvalid
    have hcmp : Semver.compare d.Version r.GetVersion = -1 := by
      rw [hd]; exact semver_compare_nil_left _ hvalid
    have key : Setup.matchVersion d r =
        decide (0 ≤ Semver.compare d.Version r.GetVersion) := by
      simp only [Setup.matchVersion]
      rw [if_neg hne, if_neg (by simp [hnc])]
    rw [key, hcmp]
    decide

/-- Witness for C10: a plain workspace source path carries no version
segment, and the resulting empty dependency version fails a rule
requiring `v1.0.0` or newer. -/
theorem matchVersion_empty_version_witness :
    Setup.matchVersion
      { Version := Setup.findModVersion (str "/home/user/project/main.go") }
      (.funcRule { base := { Version := str "v1.0.0" } }) = false :=
  matchVersion_empty_version (str "/home/user/project/main.go") _ _
    (by decide) rfl (by decide) (by decide)

/-! ## C9 — FindFlagValue -/

/-- C9: `FindFlagValue` returns the element immediately following the
first occurrence of the flag (`post.head?`), and `""` when the flag does
not occur; when the first occurrence is the final element, the `cmd[i+1]`
access is out of bounds (`post.head? = none`, the modelled panic), so the
function is total only when the first occurrence is not last. -/
theorem FindFlagValue_spec (cmd : List Str) (flag : Str) :
    (flag ∉ cmd → GoUtil.FindFlagValue cmd flag = some []) ∧
    (∀ pre post, cmd = pre ++ flag :: post → flag ∉ pre →
       GoUtil.FindFlagValue cmd flag = post.head?) := by
  constructor
  · intro h
    induction cmd with
    | nil => rfl
    | cons v rest ih =>
      have hv : ¬(v = flag) := by
        intro hvv
        exact h (by simp [hvv])
      simp only [GoUtil.FindFlagValue, if_neg hv]
      exact ih (fun hm => h (by simp [hm]))
  · intro pre post hcmd
    subst hcmd
    induction pre with
    | nil => intro _; simp [GoUtil.FindFlagValue]
    | cons a rest ih =>
      intro hpre
      have ha : ¬(a = flag) := fun h => hpre (by simp [h])
      simp only [List.cons_append, GoUtil.FindFlagValue, if_neg ha]
      exact ih (fun hm => hpre (by simp [hm]))

/-- Witness for C9: a found flag yields its successor; a flag in final
position yields the modelled out-of-bounds panic. -/
theorem FindFlagValue_spec_witness :
    GoUtil.FindFlagValue [str "-p", str "net/http"] (str "-p") =
      some (str "net/http") ∧
    GoUtil.FindFlagValue [str "compile", str "-p"] (str "-p") = none := by
  constructor
  · exact (FindFlagValue_spec _ _).2 [] [str "net/http"] rfl (by simp)
  · have h := (FindFlagValue_spec [str "compile", str "-p"] (str "-p")).2
      [str "compile"] [] rfl (by decide)
    simpa using h

/-! ## C7 — CGO file resolution -/

theorem hasSuffix_append (b suf : Str) :
    GoStrings.hasSuffix (b ++ suf) suf = true := by
  rw [GoStrings.hasSuffix, List.isSuffixOf]
  simp [List.isPrefixOf_iff_prefix]

theorem trimSuffix_append (b suf : Str) :
    GoStrings.trimSuffix (b ++ suf) suf = b := by
  rw [GoStrings.trimSuffix, if_pos (by simpa using hasSuffix_append b suf)]
  simp [List.take_left]

/-- C7: `ResolveCgoFile` fails when either argument is empty or the
basename lacks the `.cgo1.go` generated-file suffix; for a file whose
basename is `b.cgo1.go` and a nonempty source directory it returns
`Join(sourceDir, b.go)` exactly when that path exists, and fails
otherwise. -/
theorem ResolveCgoFile_spec (ex : Str → Bool) (cgoFile sourceDir : Str) :
    ((cgoFile = [] ∨ sourceDir = []) →
       ∃ e, GoUtil.ResolveCgoFile ex cgoFile sourceDir = .error e) ∧
    (GoStrings.hasSuffix (GoPath.base cgoFile) (str ".cgo1.go") = false →
       ∃ e, GoUtil.ResolveCgoFile ex cgoFile sourceDir = .error e) ∧
    (∀ b, cgoFile ≠ [] → sourceDir ≠ [] →
       GoPath.base cgoFile = b ++ str ".cgo1.go" →
       GoUtil.ResolveCgoFile ex cgoFile sourceDir =
         (if ex (GoPath.join2 sourceDir (b ++ str ".go")) = true
          then .ok (GoPath.join2 sourceDir (b ++ str ".go"))
          else .error (str "file does not exist"))) := by
  refine ⟨?_, ?_, ?_⟩
  · intro h
    refine ⟨str "cgoFile and sourceDir cannot be empty", ?_⟩
    rw [GoUtil.ResolveCgoFile, if_pos (by rcases h with h | h <;> simp [h])]
  · intro h
    by_cases he : cgoFile = [] ∨ sourceDir = []
    · refine ⟨str "cgoFile and sourceDir cannot be empty", ?_⟩
      rw [GoUtil.ResolveCgoFile, if_pos (by rcases he with he | he <;> simp [he])]
    · push_neg at he
      refine ⟨str "file is not a CGO generated file", ?_⟩
      rw [GoUtil.ResolveCgoFile, if_neg (by simp [he.1, he.2]),
        if_pos (by simp [h])]
  · intro b h1 h2 hbase
    rw [GoUtil.ResolveCgoFile, if_neg (by simp [h1, h2])]
    rw [hbase]
    have hsuf := hasSuffix_append b (str ".cgo1.go")
    rw [if_neg (by simp [hsuf])]
    rw [trimSuffix_append]
    by_cases hex : ex (GoPath.join2 sourceDir (b ++ str ".go")) = true
    · rw [if_pos hex, if_neg (by simp [hex])]
    · rw [if_neg hex, if_pos (by simp [Bool.eq_false_iff.mpr hex])]

/-- Witness for C7: `/any/base.cgo1.go` with source directory `/s`
resolves to `/s/base.go` when that file exists. -/
theorem ResolveCgoFile_spec_witness :
    GoUtil.ResolveCgoFile (fun p => p == str "/s/base.go")
      (str "/any/base.cgo1.go") (str "/s") = .ok (str "/s/base.go") := by
  have h := (ResolveCgoFile_spec (fun p => p == str "/s/base.go")
      (str "/any/base.cgo1.go") (str "/s")).2.2 (str "base")
      (by decide) (by decide) (by decide)
  rw [h]
  rfl

/-! ## C2 — the compile-shim gate -/

/-- Counterexample to C2: an otherwise-complete compile command line that
contains `-pgoprofile` satisfies the claimed shim predicate (§4.2 minus
the profile-only skip), yet `Toolexec`'s gate — which calls the scanner's
`IsCompileCommand` unchanged, skip included — classifies it as
non-compile, so the shim executes the unchanged command instead of
proceeding to the instrumentation path. -/
theorem Toolexec_pgo_counterexample :
    SpecCompileMinusPgo false (GoStrings.joinStrs pgoCompileArgs (str " ")) ∧
    Instrument.ToolexecIsCompile false pgoCompileArgs = false := by
  constructor
  · refine ⟨by decide, by decide, by decide, by decide⟩
  · decide

/-- C2 (amended): the shim's gate is exactly the build-plan scanner's
predicate — `-pgoprofile` skip included — applied to the space-joined
argument vector; in particular a compile line containing `-pgoprofile`
is executed unchanged. -/
theorem ToolexecIsCompile_scanner (windows : Bool) (args : List Str) :
    Instrument.ToolexecIsCompile windows args = true ↔
      SpecCompileInvocation windows (GoStrings.joinStrs args (str " ")) := by
  cases windows <;>
    simp [Instrument.ToolexecIsCompile, GoUtil.IsCompileCommand,
      SpecCompileInvocation, and_assoc, Bool.not_eq_true']

/-! ## C4 — rule variant selection -/

/-- Counterexample to C4: a field map containing both `struct` and
`func` is not a load-time failure — `CreateRuleFromFields` silently
resolves it to the struct variant (the first matching `switch` case). -/
theorem CreateRuleFromFields_ambiguous_counterexample :
    RuleLoader.Fields.present ambiguousFields (str "struct") = true ∧
    RuleLoader.Fields.present ambiguousFields (str "func") = true ∧
    RuleLoader.CreateRuleFromFields (str "r") ambiguousFields =
      .ok (.structRule
        { base := ⟨str "r", str "github.com/example/lib", []⟩ }) :=
  ⟨rfl, rfl, rfl⟩

/-- C4 (amended): the catalog selects the variant by which of `func`,
`struct`, `raw`, `file` is present, in the fixed priority order
`struct`, `file`, `raw`, `func`; a map with several variant keys
silently resolves to the highest-priority one present, and only a map
with none of the four keys is a load-time failure (given the base-record
precondition that a present `version` is a string). -/
theorem CreateRuleFromFields_priority (name : Str)
    (fields : RuleLoader.Fields)
    (hv : fields.get (str "version") ≠ .vother) :
    variantOf (RuleLoader.CreateRuleFromFields name fields) =
      (if fields.present (str "struct") then some RuleVariant.vstruct
       else if fields.present (str "file") then some RuleVariant.vfile
       else if fields.present (str "raw") then some RuleVariant.vraw
       else if fields.present (str "func") then some RuleVariant.vfunc
       else none) := by
  cases h : fields.get (str "version") with
  | vstr s =>
    simp only [RuleLoader.CreateRuleFromFields, h,
      RuleLoader.CreateRuleFromFields.selectVariant]
    split_ifs <;> rfl
  | vnull =>
    simp only [RuleLoader.CreateRuleFromFields, h,
      RuleLoader.CreateRuleFromFields.selectVariant]
    split_ifs <;> rfl
  | vother => exact absurd h hv

/-- Witness for C4 (amended): a map whose only variant key is `func`
loads as a function rule. -/
theorem CreateRuleFromFields_priority_witness :
    RuleLoader.Fields.get funcOnlyFields (str "version") ≠ .vother ∧
    variantOf (RuleLoader.CreateRuleFromFields (str "r") funcOnlyFields) =
      some RuleVariant.vfunc := by
  refine ⟨by decide, ?_⟩
  rw [CreateRuleFromFields_priority (str "r") funcOnlyFields (by decide)]
  rfl

/-! ## C5 — command splitter -/

theorem splitLoop_word (w : Str) (hw : ∀ c ∈ w, c ≠ '"' ∧ c ≠ ' ') :
    ∀ (rest arg : Str) (args : List Str),
    GoUtil.splitLoop (w ++ rest) false arg args =
      GoUtil.splitLoop rest false (arg ++ w) args := by
  induction w with
  | nil => intro rest arg args; simp
  | cons c w' ih =>
    intro rest arg args
    have hc1 : ¬(c = '"') := (hw c (by simp)).1
    have hc2 : ¬(c = ' ') := (hw c (by simp)).2
    simp only [List.cons_append, GoUtil.splitLoop]
    rw [if_neg hc1, if_neg (by simp [hc2])]
    simp only [List.append_eq]
    rw [ih (fun x hx => hw x (by simp [hx])) rest (arg ++ [c]) args]
    simp

theorem splitLoop_join (A : List Str)
    (hA : ∀ a ∈ A, a ≠ [] ∧ ∀ c ∈ a, c ≠ '"' ∧ c ≠ ' ') :
    ∀ args, GoUtil.splitLoop (GoStrings.joinStrs A (str " ")) false [] args =
      args ++ A := by
  induction A with
  | nil => intro args; simp [GoStrings.joinStrs, GoUtil.splitLoop]
  | cons a rest ih =>
    intro args
    have ha := hA a (by simp)
    cases rest with
    | nil =>
      show GoUtil.splitLoop (GoStrings.joinStrs [a] (str " ")) false [] args =
        args ++ [a]
      have hj : GoStrings.joinStrs [a] (str " ") = a ++ [] := by
        simp [GoStrings.joinStrs]
      rw [hj, splitLoop_word a ha.2 [] [] args]
      simp only [GoUtil.splitLoop, List.nil_append]
      rw [if_pos (by simpa [List.length_pos] using ha.1)]
    | cons b rest' =>
      have hj : GoStrings.joinStrs (a :: b :: rest') (str " ") =
          a ++ (' ' :: GoStrings.joinStrs (b :: rest') (str " ")) := by
        show a ++ str " " ++ GoStrings.joinStrs (b :: rest') (str " ") = _
        simp [str]
      rw [hj, splitLoop_word a ha.2 _ [] args]
      simp only [GoUtil.splitLoop, List.nil_append]
      rw [if_neg (by decide), if_pos (by simp),
        if_pos (by simpa [List.length_pos] using ha.1)]
      rw [ih (fun x hx => hA x (by simp [hx])) (args ++ [a])]
      simp

/-- C5 (amended): the splitter round-trips any argument vector whose
elements are nonempty and contain neither a space nor a double quote
(`Split(Join(A, " ")) = A`); and each double-quoted region of an input
is preserved as one token: `a "b c" d` splits into
`["a", "b c", "d"]`. -/
theorem SplitCompileCmds_spec :
    (∀ A : List Str, (∀ a ∈ A, a ≠ [] ∧ ∀ c ∈ a, c ≠ '"' ∧ c ≠ ' ') →
       GoUtil.SplitCompileCmds (GoStrings.joinStrs A (str " ")) = A) ∧
    GoUtil.SplitCompileCmds (str "a \"b c\" d") =
      [str "a", str "b c", str "d"] := by
  constructor
  · intro A hA
    unfold GoUtil.SplitCompileCmds
    simpa using splitLoop_join A hA []
  · decide

/-- Counterexample to C5 as stated: the vector `["a b"]` contains no
double quote, yet `Split(Join(A, " "))` returns `["a", "b"] ≠ A` — the
round-trip needs the elements to be space-free as well. -/
theorem SplitCompileCmds_spec_counterexample :
    ('"' ∉ str "a b") ∧
    GoUtil.SplitCompileCmds (GoStrings.joinStrs [str "a b"] (str " ")) ≠
      [str "a b"] :=
  ⟨by decide, by decide⟩

/-- Witness for C5 (amended): a quote-free, space-free vector
round-trips. -/
theorem SplitCompileCmds_spec_witness :
    GoUtil.SplitCompileCmds
      (GoStrings.joinStrs [str "-o", str "main.a"] (str " ")) =
      [str "-o", str "main.a"] :=
  SplitCompileCmds_spec.1 [str "-o", str "main.a"] (by decide)

/-! ## C6 — build-target extraction -/

theorem pathFlag_hasPrefixDash (p : Str)
    (h : GoUtil.flagsWithPathValues p = true) :
    GoStrings.hasPrefix p (str "-") = true ∧
    (p = str "go" || p = str "build") = false := by
  simp only [GoUtil.flagsWithPathValues, Bool.or_eq_true, decide_eq_true_eq] at h
  rcases h with ((((h | h) | h) | h) | h) <;> subst h <;>
    exact ⟨by decide, by decide⟩

theorem getBuildTargetLoop_eq_trailing (r : List Str) :
    GoUtil.getBuildTargetLoop r = gbtTrailing r := by
  induction r with
  | nil => rfl
  | cons a rest ih =>
    by_cases hskip : (a = str "go" ∨ a = str "build")
    · have hskipb : (decide (a = str "go") || decide (a = str "build")) = true := by
        rcases hskip with h | h <;> simp [h]
      by_cases hprev : (match rest.head? with
          | some prev => GoUtil.flagsWithPathValues prev
          | none => false) = true
      · have hloop : GoUtil.getBuildTargetLoop (a :: rest) = [] := by
          simp only [GoUtil.getBuildTargetLoop]
          rw [if_pos hprev]
        rw [hloop]
        cases hr : rest with
        | nil => rw [hr] at hprev; simp at hprev
        | cons p rest' =>
          rw [hr] at hprev
          simp only [List.head?] at hprev
          have hp := pathFlag_hasPrefixDash p hprev
          have hpb : (decide (p = str "go") || decide (p = str "build")) = false := by
            simpa using hp.2
          simp only [gbtTrailing, List.dropWhile_cons, hskipb, hpb]
          simp only [if_true, Bool.false_eq_true, if_false]
          by_cases h2 : (match rest'.head? with
              | some prev => GoUtil.flagsWithPathValues prev
              | none => false) = true
          · simp [h2]
          · simp [h2, hp.1]
      · have hloop : GoUtil.getBuildTargetLoop (a :: rest) =
            GoUtil.getBuildTargetLoop rest := by
          simp only [GoUtil.getBuildTargetLoop]
          rw [if_neg hprev, if_neg ?hpre, if_pos hskipb]
          case hpre =>
            rcases hskip with h | h <;> subst h <;> decide
        rw [hloop, ih]
        simp only [gbtTrailing, List.dropWhile_cons, hskipb, if_true]
    · have hskipb : (decide (a = str "go") || decide (a = str "build")) = false := by
        simp only [Bool.or_eq_false_iff, decide_eq_false_iff_not]
        exact ⟨fun h => hskip (Or.inl h), fun h => hskip (Or.inr h)⟩
      simp only [gbtTrailing, List.dropWhile_cons, hskipb]
      simp only [Bool.false_eq_true, if_false]
      simp only [GoUtil.getBuildTargetLoop]
      by_cases hprev : (match rest.head? with
          | some prev => GoUtil.flagsWithPathValues prev
          | none => false) = true
      · rw [if_pos hprev, if_pos hprev]
      · rw [if_neg hprev, if_neg hprev]
        by_cases hdash : GoStrings.hasPrefix a (str "-") = true
        · rw [if_pos hdash, if_pos hdash]
        · rw [if_neg hdash, if_neg hdash, if_neg (by simpa using hskip)]

/-- C6 (amended): `GetBuildTarget` only examines the trailing arguments —
after ignoring any trailing `go`/`build` words it yields the
path-cleaned final argument, provided that argument is not a flag and is
not immediately preceded by a path-taking flag (`-o`, `-modfile`,
`-overlay`, `-pgo`, `-pkgdir`), and the empty string when it cleans to
`.` or in every other case; in particular
`["go", "build", "-o", "./bin/app", "./cmd/app"]` yields `"cmd/app"`.
For commands whose flags all precede the positional arguments this
agrees with the claim's remove-flags-take-last description, but not in
general. -/
theorem GetBuildTarget_trailing :
    (∀ cmd : List Str, GoUtil.GetBuildTarget cmd = gbtTrailing cmd.reverse) ∧
    GoUtil.GetBuildTarget [str "go", str "build", str "-o", str "./bin/app",
      str "./cmd/app"] = str "cmd/app" := by
  constructor
  · intro cmd
    exact getBuildTargetLoop_eq_trailing cmd.reverse
  · decide

/-- Counterexample to C6 as stated: on
`["go", "build", "pkg", "-v"]` the claim's description (drop flags and
path-flag values, take the cleaned last positional) yields `"pkg"`, but
`GetBuildTarget` — scanning backwards and stopping at the first flag —
yields `""`. -/
theorem GetBuildTarget_counterexample :
    specBuildTarget [str "go", str "build", str "pkg", str "-v"] = str "pkg" ∧
    GoUtil.GetBuildTarget [str "go", str "build", str "pkg", str "-v"] = [] ∧
    GoUtil.GetBuildTarget [str "go", str "build", str "pkg", str "-v"] ≠
      specBuildTarget [str "go", str "build", str "pkg", str "-v"] :=
  ⟨by decide, by decide, by decide⟩

/-! ## C3 — hook-module linkage declarations -/


theorem hookStep_countP (name : Str) (seen : List Str) (nm p : Str) :
    ((Setup.hookStep seen nm p).1.countP (fun d => d.name == name)) =
      if nm = name ∧ nm ≠ [] ∧ nm ∉ seen then 1 else 0 := by
  rw [Setup.hookStep]
  by_cases h1 : nm ≠ [] ∧ nm ∉ seen
  · rw [if_pos (by simp [h1.1, h1.2])]
    by_cases h2 : nm = name
    · rw [if_pos ⟨h2, h1⟩]
      simp [List.countP_cons, h2]
    · rw [if_neg (fun hcon => h2 hcon.1)]
      simp [List.countP_cons, h2]
  · rw [if_neg (by simpa [Decidable.not_and_iff_or_not, -Bool.and_eq_true] using h1), if_neg (fun hcon => h1 hcon.2)]
    simp

theorem hookStep_seen (seen : List Str) (nm p : Str) :
    (Setup.hookStep seen nm p).2 =
      if nm ≠ [] ∧ nm ∉ seen then nm :: seen else seen := by
  rw [Setup.hookStep]
  by_cases h1 : nm ≠ [] ∧ nm ∉ seen
  · rw [if_pos (by simp [h1.1, h1.2]), if_pos h1]
  · rw [if_neg (by simpa [Decidable.not_and_iff_or_not, -Bool.and_eq_true] using h1), if_neg h1]

theorem genHookLinkNamesLoop_count (name : Str) (hname : name ≠ []) :
    ∀ (rules : List Rule.InstFuncRule) (seen : List Str),
    ((Setup.genHookLinkNamesLoop seen rules).countP
        (fun d => d.name == name)) =
      (if name ∈ seen then 0
       else if rules.any (fun r => r.Before == name || r.After == name) then 1
       else 0) := by
  intro rules
  induction rules with
  | nil =>
    intro seen
    simp [Setup.genHookLinkNamesLoop]
  | cons m rest ih =>
    intro seen
    simp only [Setup.genHookLinkNamesLoop, List.countP_append,
      hookStep_countP, hookStep_seen, ih, List.any_cons]
    by_cases hB : name ∈ seen
    · have hs1 : name ∈ (if m.Before ≠ [] ∧ m.Before ∉ seen
          then m.Before :: seen else seen) := by
        split_ifs <;> simp [hB]
      have hs2 : name ∈ (if m.After ≠ [] ∧ m.After ∉
            (if m.Before ≠ [] ∧ m.Before ∉ seen then m.Before :: seen else seen)
          then m.After :: (if m.Before ≠ [] ∧ m.Before ∉ seen
            then m.Before :: seen else seen)
          else (if m.Before ≠ [] ∧ m.Before ∉ seen
            then m.Before :: seen else seen)) := by
        split_ifs <;> simp_all
      rw [if_pos hB, if_pos hs2,
        if_neg (by rintro ⟨rfl, -, h⟩; exact h hB),
        if_neg (by rintro ⟨rfl, -, h⟩; exact h hs1)]
    · by_cases hBn : m.Before = name
      · subst hBn
        rw [if_neg hB, if_pos ⟨rfl, hname, hB⟩]
        have hseen1 : (if m.Before ≠ [] ∧ m.Before ∉ seen
            then m.Before :: seen else seen) = m.Before :: seen :=
          if_pos ⟨hname, hB⟩
        rw [hseen1]
        rw [if_neg (by rintro ⟨heq, -, h⟩; rw [heq] at h; exact h (by simp))]
        have hs2 : m.Before ∈ (if m.After ≠ [] ∧ m.After ∉ m.Before :: seen
            then m.After :: m.Before :: seen else m.Before :: seen) := by
          split_ifs <;> simp
        rw [if_pos hs2]
        simp
      · rw [if_neg hB, if_neg (fun hcon => hBn hcon.1)]
        have hseen1 : name ∉ (if m.Before ≠ [] ∧ m.Before ∉ seen
            then m.Before :: seen else seen) := by
          split_ifs <;> simp_all [Ne.symm]
        by_cases hAn : m.After = name
        · subst hAn
          rw [if_pos ⟨rfl, hname, hseen1⟩]
          have hs2 : m.After ∈ (if m.After ≠ [] ∧ m.After ∉
                (if m.Before ≠ [] ∧ m.Before ∉ seen
                  then m.Before :: seen else seen)
              then m.After :: (if m.Before ≠ [] ∧ m.Before ∉ seen
                then m.Before :: seen else seen)
              else (if m.Before ≠ [] ∧ m.Before ∉ seen
                then m.Before :: seen else seen)) := by
            rw [if_pos ⟨hname, hseen1⟩]; simp
          rw [if_pos hs2]
          simp
        · rw [if_neg (fun hcon => hAn hcon.1)]
          have hs2 : name ∉ (if m.After ≠ [] ∧ m.After ∉
                (if m.Before ≠ [] ∧ m.Before ∉ seen
                  then m.Before :: seen else seen)
              then m.After :: (if m.Before ≠ [] ∧ m.Before ∉ seen
                then m.Before :: seen else seen)
              else (if m.Before ≠ [] ∧ m.Before ∉ seen
                then m.Before :: seen else seen)) := by
            split_ifs <;> simp_all [Ne.symm]
          rw [if_neg hs2]
          have hbn : (m.Before == name) = false := by
            simpa using hBn
          have han : (m.After == name) = false := by
            simpa using hAn
          simp [hbn, han]

/-- C3 (amended): the runtime-wiring generator emits exactly one
bodiless alias declaration per distinct nonempty hook *name* across all
matched rules' `before`/`after` hooks — deduplication is by name alone,
not by `(hook_path, name)` pair. -/
theorem genHookLinkNames_unique_per_name (rules : List Rule.InstFuncRule)
    (name : Str) (hname : name ≠ [])
    (href : ∃ r ∈ rules, r.Before = name ∨ r.After = name) :
    (Setup.genHookLinkNames rules).countP (fun d => d.name == name) = 1 := by
  have h := genHookLinkNamesLoop_count name hname rules []
  rw [Setup.genHookLinkNames, h]
  rw [if_neg (by simp)]
  rw [if_pos ?hany]
  case hany =>
    obtain ⟨r, hr, hor⟩ := href
    refine (List.any_eq_true).mpr ⟨r, hr, ?_⟩
    rcases hor with h1 | h1 <;> simp [h1]

/-- Witness for C3 (amended): a hook name shared by two rules yields a
single declaration. -/
theorem genHookLinkNames_unique_witness :
    (Setup.genHookLinkNames
      [{ Before := str "MyHookBefore", After := str "MyHookAfter",
         Path := str "hooks/a" },
       { Before := str "MyHookBefore", Path := str "hooks/b" }]).countP
        (fun d => d.name == str "MyHookBefore") = 1 :=
  genHookLinkNames_unique_per_name _ _ (by decide)
    ⟨{ Before := str "MyHookBefore", After := str "MyHookAfter",
       Path := str "hooks/a" }, by simp, Or.inl rfl⟩

/-- Counterexample to C3 as stated: two matched rules share the hook
name `MyHook` under the different hook paths `hooks/a` and `hooks/b`;
the generator emits only the `hooks/a` declaration, and the distinct
pair `(hooks/b, MyHook)` — though referenced by a matched rule — gets no
declaration instead of exactly one. -/
theorem genHookLinkNames_pair_counterexample :
    Setup.genHookLinkNames
      [{ Before := str "MyHook", Path := str "hooks/a" },
       { Before := str "MyHook", Path := str "hooks/b" }] =
      [{ name := str "MyHook", path := str "hooks/a" }] ∧
    (Setup.genHookLinkNames
      [{ Before := str "MyHook", Path := str "hooks/a" },
       { Before := str "MyHook", Path := str "hooks/b" }]).countP
        (fun d => d.path == str "hooks/b") = 0 :=
  ⟨by decide, by decide⟩

/-! ## C8 — globals-file emission -/


theorem applyRules_hasFunc (orc : Instrument.Oracles)
    (rules : List Rule.InstRule) :
    ∀ (acc h' : Bool), Instrument.applyRules orc acc rules = .ok h' →
      (h' = true ↔ acc = true ∨ ∃ r ∈ rules, isFuncOrRaw r = true) := by
  induction rules with
  | nil =>
    intro acc h' h
    simp only [Instrument.applyRules, Except.ok.injEq] at h
    subst h
    simp
  | cons r rest ih =>
    intro acc h' h
    cases r with
    | funcRule rt =>
      simp only [Instrument.applyRules] at h
      by_cases happ : orc.applyFunc rt = true
      · rw [if_pos happ] at h
        have := (ih true h' h).mp
        have h2 := (ih true h' h).mpr (Or.inl rfl)
        simp [h2, isFuncOrRaw]
      · rw [if_neg happ] at h
        exact absurd h (by simp)
    | structRule rt =>
      simp only [Instrument.applyRules] at h
      by_cases happ : orc.applyStruct rt = true
      · rw [if_pos happ] at h
        rw [ih acc h' h]
        simp [isFuncOrRaw]
      · rw [if_neg happ] at h
        exact absurd h (by simp)
    | rawRule rt =>
      simp only [Instrument.applyRules] at h
      by_cases happ : orc.applyRaw rt = true
      · rw [if_pos happ] at h
        have h2 := (ih true h' h).mpr (Or.inl rfl)
        simp [h2, isFuncOrRaw]
      · rw [if_neg happ] at h
        exact absurd h (by simp)
    | fileRule rt =>
      simp only [Instrument.applyRules] at h
      exact absurd h (by simp)

theorem instrumentFiles_hasFunc (orc : Instrument.Oracles)
    (l : List (Str × List Rule.InstRule)) :
    ∀ (acc g : Bool), Instrument.instrumentFiles orc acc l = .ok g →
      (g = true ↔ acc = true ∨ ∃ fr ∈ l,
        ∃ r ∈ Instrument.filterRulesWithQuickCheck orc.quick fr.1 fr.2,
          isFuncOrRaw r = true) := by
  induction l with
  | nil =>
    intro acc g h
    simp only [Instrument.instrumentFiles, Except.ok.injEq] at h
    subst h
    simp
  | cons fr rest ih =>
    intro acc g h
    obtain ⟨file, rules⟩ := fr
    simp only [Instrument.instrumentFiles] at h
    by_cases hfil :
        Instrument.filterRulesWithQuickCheck orc.quick file rules = []
    · rw [if_pos hfil] at h
      rw [ih acc g h]
      constructor
      · rintro (h1 | ⟨x, hx, hr⟩)
        · exact Or.inl h1
        · exact Or.inr ⟨x, by simp [hx], hr⟩
      · rintro (h1 | ⟨x, hx, hr⟩)
        · exact Or.inl h1
        · rcases List.mem_cons.mp hx with hx1 | hx1
          · subst hx1
            rw [hfil] at hr
            obtain ⟨r, hrr, -⟩ := hr
            exact absurd hrr (by simp)
          · exact Or.inr ⟨x, hx1, hr⟩
    · rw [if_neg hfil] at h
      by_cases hparse : orc.parseFile file = true
      · rw [if_neg (by simp [hparse])] at h
        cases happ : Instrument.applyRules orc acc
            (Instrument.filterRulesWithQuickCheck orc.quick file rules) with
        | error e => rw [happ] at h; exact absurd h (by simp)
        | ok h1 =>
          rw [happ] at h
          dsimp only [] at h
          by_cases hopt : orc.optimizeTJumps = true
          · rw [if_neg (by simp [hopt])] at h
            by_cases hwr : orc.writeInstrumented file = true
            · rw [if_neg (by simp [hwr])] at h
              rw [ih h1 g h, applyRules_hasFunc orc _ acc h1 happ]
              constructor
              · rintro ((h2 | ⟨r, hr, hfr⟩) | ⟨x, hx, hr⟩)
                · exact Or.inl h2
                · exact Or.inr ⟨(file, rules), by simp, r, hr, hfr⟩
                · exact Or.inr ⟨x, by simp [hx], hr⟩
              · rintro (h2 | ⟨x, hx, hr⟩)
                · exact Or.inl (Or.inl h2)
                · rcases List.mem_cons.mp hx with hx1 | hx1
                  · subst hx1
                    exact Or.inl (Or.inr hr)
                  · exact Or.inr ⟨x, hx1, hr⟩
            · rw [if_pos (by simp [hwr])] at h
              exact absurd h (by simp)
          · rw [if_pos (by simp [hopt])] at h
            exact absurd h (by simp)
      · rw [if_pos (by simp [hparse])] at h
        exact absurd h (by simp)

/-- C8: on a successful shim run, the globals file (`otel.globals.go`)
is emitted for a package iff at least one function or raw rule was
applied to some of its files (i.e. survived the quick-check filter of a
processed file); a package receiving only struct and/or file rules
produces no globals file. -/
theorem instrument_globals_iff (orc : Instrument.Oracles)
    (rset : Instrument.InstRuleSet) (g : Bool)
    (h : Instrument.instrument orc rset = .ok g) :
    (g = true ↔ ∃ fr ∈ Instrument.groupRules rset,
       ∃ r ∈ Instrument.filterRulesWithQuickCheck orc.quick fr.1 fr.2,
         isFuncOrRaw r = true) := by
  simp only [Instrument.instrument] at h
  cases hfile : Instrument.applyFileRules orc rset.PackageName rset.FileRules with
  | error e => rw [hfile] at h; exact absurd h (by simp)
  | ok u =>
    rw [hfile] at h
    dsimp only [] at h
    cases hfs : Instrument.instrumentFiles orc false
        (Instrument.groupRules rset) with
    | error e => rw [hfs] at h; exact absurd h (by simp)
    | ok hf =>
      rw [hfs] at h
      dsimp only [] at h
      have hiff := instrumentFiles_hasFunc orc (Instrument.groupRules rset)
        false hf hfs
      simp only [Bool.false_eq_true, false_or] at hiff
      cases hf with
      | true =>
        by_cases hwg : orc.writeGlobals rset.PackageName = true
        · rw [if_pos rfl, if_pos hwg] at h
          have hg : g = true := by
            have := h
            simp only [Except.ok.injEq] at this
            exact this.symm
          rw [hg]
          simpa using hiff.mp rfl
        · rw [if_pos rfl, if_neg hwg] at h
          exact absurd h (by simp)
      | false =>
        rw [if_neg (by simp)] at h
        have hg : g = false := by
          simp only [Except.ok.injEq] at h
          exact h.symm
        rw [hg]
        constructor
        · intro hcon; exact absurd hcon (by simp)
        · intro hex
          exact absurd (hiff.mpr hex) (by simp)

/-- Witness for C8: with all-success oracles, a rule set carrying one
function rule runs to `.ok true` (globals emitted) and indeed contains
an applied function rule. -/
theorem instrument_globals_iff_witness :
    ∃ fr ∈ Instrument.groupRules funcRuleSet,
      ∃ r ∈ Instrument.filterRulesWithQuickCheck allOkOracles.quick fr.1 fr.2,
        isFuncOrRaw r = true :=
  (instrument_globals_iff allOkOracles funcRuleSet true rfl).mp rfl

example : Instrument.instrument allOkOracles structRuleSet = .ok false := rfl

example : Instrument.instrument allOkOracles funcRuleSet = .ok true := rfl
